import Mathlib

/-!
Verification of the multi-digit MNIST dataset generator
(`unchanged_mnist.py`): a shallow embedding of `concat_images`,
`concat_labels` and `generate_digit_sequences`, together with proofs of the
specified properties.

Modelling conventions:
* A numpy 2-d array is an `NpImage`: explicit height/width plus a pixel
  function.  Slice assignment follows numpy semantics (negative indices wrap,
  bounds are clipped, a shape mismatch between the slice and the assigned
  array raises `ValueError`), modelled for exact-shape assignments, the only
  kind the program performs.
* Python 2 integer division `/` on ints is floor division, modelled by
  `Int.fdiv` (all divisions in the program happen to be exact).
* `scipy.misc.imresize(img, scale)` is an external library call; it is passed
  in as an explicit `resize` function.  The program relies only on it
  returning a `new_height × new_width` image for `scale = 0.45` on 28×28
  input, which theorems take as a hypothesis (`GoodResize`).
* `random.sample(range(0, len(data)), i)` is an external library call drawing
  `i` distinct indices; it is modelled by an explicit selection oracle `sel`
  indexed by the loop counter, together with the `ValidSel` contract
  (`i` distinct in-range indices), and it raises `ValueError` when the sample
  size exceeds the population, exactly as the Python function does.
* Exceptions are modelled with `Except String`; an error propagates and no
  partial result is returned, mirroring exception propagation.
* The final `np.expand_dims(X, axis=3)` only adds a trailing singleton axis
  and is not modelled; the dataset is the list of 64×64 canvases.
-/

/-- `height, width = 64, 64` -/
def height : Nat := 64

/-- width of the synthetic images. -/
def width : Nat := 64

/-- `max_digits = 5` -/
def max_digits : Nat := 5

/-- `new_height, new_width = 12, 12` -/
def new_height : Nat := 12

/-- width of a scaled glyph. -/
def new_width : Nat := 12

/-- A numpy 2-d array: explicit shape plus pixel contents. -/
@[ext]
structure NpImage where
  h : Nat
  w : Nat
  pix : Nat → Nat → Nat

/-- `np.zeros(shape=(h, w))`. -/
def npZeros (h w : Nat) : NpImage := ⟨h, w, fun _ _ => 0⟩

/-- Resolve one bound of a python slice `a:b` against axis length `n`:
negative indices count from the end, then the bound is clipped to `[0, n]`. -/
def npSliceBound (n : Nat) (i : Int) : Nat :=
  if i < 0 then ((n : Int) + i).toNat else min i.toNat n

/-- `img[r0:r1, c0:c1] = patch` — numpy 2-d slice assignment.  Raises
`ValueError` when the shape of the selected region differs from the shape of
`patch` (the program only ever assigns exact-shape patches, so broadcasting
is not modelled). -/
def npSetSlice (img : NpImage) (r0 r1 c0 c1 : Int) (patch : NpImage) :
    Except String NpImage :=
  let R0 := npSliceBound img.h r0
  let R1 := npSliceBound img.h r1
  let C0 := npSliceBound img.w c0
  let C1 := npSliceBound img.w c1
  if patch.h = R1 - R0 ∧ patch.w = C1 - C0 then
    .ok { img with pix := fun r c =>
      (if R0 ≤ r ∧ r < R1 ∧ C0 ≤ c ∧ c < C1 then patch.pix (r - R0) (c - C0)
       else img.pix r c) }
  else .error "ValueError: could not broadcast input array"

/-- `y_pad = (height - new_height) / 2` (Python 2 floor division). -/
def y_pad : Int := ((height : Int) - new_height).fdiv 2

/-- `x_pad = (width - num_digits * new_width) / 2` (Python 2 floor
division). -/
def x_padOf (num_digits : Nat) : Int :=
  ((width : Int) - num_digits * new_width).fdiv 2

/-- The `for i in range(num_digits)` loop of `concat_images`: place glyphs
`i, i+1, …, i+fuel-1` into the canvas.  Each iteration scales `images[i]` and
assigns it to `new_image[y_pad:height-y_pad, x_offset:x_offset+new_width]`. -/
def placeLoop (resize : NpImage → NpImage) (images : List NpImage)
    (x_pad : Int) : Nat → Nat → NpImage → Except String NpImage
  | _, 0, img => .ok img
  | i, fuel+1, img =>
    let scaled := resize (images.getD i (npZeros 0 0))
    let x_offset := x_pad + i * new_width
    match npSetSlice img y_pad ((height : Int) - y_pad)
        x_offset (x_offset + new_width) scaled with
    | .ok img1 => placeLoop resize images x_pad (i+1) fuel img1
    | .error e => .error e

/-- `concat_images(images)`: scales, concatenates and centers a sequence of
digits in a fresh `height × width` zero canvas.  `resize` stands for the
external `imresize(·, scale)`. -/
def concat_images (resize : NpImage → NpImage) (images : List NpImage) :
    Except String NpImage :=
  let num_digits := images.length
  placeLoop resize images (x_padOf num_digits) 0 num_digits
    (npZeros height width)

/-- `concat_labels(labels, num_images=5)`: a length-`num_images` vector whose
slot `i` is `labels[i]` for `i < len(labels)` and the filler `10` beyond. -/
def concat_labels (labels : List Nat) (num_images : Nat := 5) : List Nat :=
  (List.range num_images).map fun i =>
    if i < labels.length then labels.getD i 0 else 10

/-- `random.sample(range(0, pop), k)` for the `j`-th generated sample: the
actual indices come from the selection oracle `sel`; the call raises
`ValueError` when the sample size exceeds the population, exactly as Python's
`random.sample` does. -/
def sampleIdx (sel : Nat → Nat → Nat → List Nat) (j pop k : Nat) :
    Except String (List Nat) :=
  if k ≤ pop then .ok (sel j pop k) else .error "ValueError: sample larger than population"

/-- Contract of Python's `random.sample(range(0, pop), k)` for `k ≤ pop`:
`k` pairwise-distinct indices, all below `pop`.  Every run of the program
uses an oracle satisfying this. -/
def ValidSel (sel : Nat → Nat → Nat → List Nat) : Prop :=
  ∀ j pop k, k ≤ pop →
    (sel j pop k).length = k ∧ (sel j pop k).Nodup ∧
      ∀ x ∈ sel j pop k, x < pop

/-- Contract of the external `imresize(·, scale)` with `scale = 0.45`:
the scaled glyph is `new_height × new_width`. -/
def GoodResize (resize : NpImage → NpImage) : Prop :=
  ∀ g, (resize g).h = new_height ∧ (resize g).w = new_width

/-- The inner `for j in range((i-1)*n_samples, i*n_samples)` loop of
`generate_digit_sequences`, for sequence length `i`, starting at output
index `j` with `fuel` iterations left: draw `i` indices, composite, and
write `X[j]` and `y[j]`. -/
def genInner (resize : NpImage → NpImage) (sel : Nat → Nat → Nat → List Nat)
    (data : List NpImage) (labels : List Nat) (i : Nat) :
    Nat → Nat → List NpImage × List (List Nat) →
      Except String (List NpImage × List (List Nat))
  | _, 0, acc => .ok acc
  | j, fuel+1, (Xa, ya) =>
    match sampleIdx sel j data.length i with
    | .error e => .error e
    | .ok selection =>
      match concat_images resize
          (selection.map fun ix => data.getD ix (npZeros 0 0)) with
      | .error e => .error e
      | .ok canvas =>
        genInner resize sel data labels i (j+1) fuel
          (Xa.set j canvas,
           ya.set j (concat_labels (selection.map fun ix => labels.getD ix 0)))

/-- The outer `for i in range(1, max_digits+1)` loop of
`generate_digit_sequences`, starting at sequence length `i` with `fuel`
lengths left; each length fills its `n_samples`-sized block. -/
def genOuter (resize : NpImage → NpImage) (sel : Nat → Nat → Nat → List Nat)
    (data : List NpImage) (labels : List Nat) (n_samples : Nat) :
    Nat → Nat → List NpImage × List (List Nat) →
      Except String (List NpImage × List (List Nat))
  | _, 0, acc => .ok acc
  | i, fuel+1, acc =>
    match genInner resize sel data labels i ((i-1) * n_samples) n_samples acc with
    | .error e => .error e
    | .ok acc1 => genOuter resize sel data labels n_samples (i+1) fuel acc1

/-- `generate_digit_sequences(data, labels, n)`: preallocate
`X = np.zeros((n, height, width))` and `y = np.zeros((n, max_digits))`,
set `n_samples = n / max_digits` (Python 2 floor division on ints), and fill
one block per sequence length.  (`np.expand_dims` only appends a singleton
axis and is not modelled.) -/
def generate_digit_sequences (resize : NpImage → NpImage)
    (sel : Nat → Nat → Nat → List Nat) (data : List NpImage)
    (labels : List Nat) (n : Nat) :
    Except String (List NpImage × List (List Nat)) :=
  let X := List.replicate n (npZeros height width)
  let y := List.replicate n (List.replicate max_digits 0)
  let n_samples := n / max_digits
  genOuter resize sel data labels n_samples 1 max_digits (X, y)

/-- Number of non-sentinel slots of a label vector, `(row != 10).sum()`. -/
def countNonSentinel (l : List Nat) : Nat :=
  (l.filter fun v => v != 10).length

/-- A concrete valid selection oracle: always draw `0, 1, …, k-1`. -/
def rangeSel : Nat → Nat → Nat → List Nat := fun _ _ k => List.range k

/-- A concrete resize function satisfying `GoodResize`. -/
def constResize : NpImage → NpImage := fun _ => npZeros new_height new_width

/-- Whether an `Except` result is a success. -/
def isOkE {α : Type} : Except String α → Bool
  | .ok _ => true
  | .error _ => false

/-- The label component of a `generate_digit_sequences` result (empty on
error). -/
def labelsOf (r : Except String (List NpImage × List (List Nat))) :
    List (List Nat) :=
  match r with
  | .ok p => p.2
  | .error _ => []

theorem validSel_rangeSel : ValidSel rangeSel := by
  intro j pop k hk
  refine ⟨List.length_range k, List.nodup_range k, ?_⟩
  intro x hx
  exact lt_of_lt_of_le (List.mem_range.mp hx) hk

theorem goodResize_const : GoodResize constResize := fun _ => ⟨rfl, rfl⟩

/-- `y_pad = (64 - 12) / 2 = 26`. -/
theorem y_pad_eq : y_pad = 26 := by decide

theorem new_width_eq : new_width = 12 := rfl

theorem new_height_eq : new_height = 12 := rfl

theorem height_eq : height = 64 := rfl

theorem width_eq : width = 64 := rfl

theorem max_digits_eq : max_digits = 5 := rfl

/-- A nonnegative python slice bound below the axis length resolves to
itself. -/
theorem npSliceBound_ofNat (n m : Nat) (h : m ≤ n) :
    npSliceBound n (m : Int) = m := by
  unfold npSliceBound
  rw [if_neg (by omega)]
  omega

/-- The value of `x_pad` for a valid digit count, as a natural number:
`x_padN num = (width - num * new_width) / 2`. -/
def x_padN (num_digits : Nat) : Nat := (width - num_digits * new_width) / 2

/-- For `num ≤ max_digits` the Python 2 floor division computing `x_pad` is
the natural-number division, and the glyph block fits in the canvas. -/
theorem x_padOf_eq (num : Nat) (h : num ≤ max_digits) :
    x_padOf num = (x_padN num : Int) ∧ x_padN num + num * 12 ≤ 64 := by
  have h5 : num ≤ 5 := h
  interval_cases num <;> exact ⟨by decide, by decide⟩

/-- Evaluation of the slice assignment performed by `concat_images` on a
64×64 canvas with a 12×12 patch at column offset `x0`. -/
theorem npSetSlice_at (img patch : NpImage) (hh : img.h = height)
    (hw : img.w = width) (hp : patch.h = new_height) (hq : patch.w = new_width)
    (x0 : Nat) (hx : x0 + 12 ≤ 64) :
    npSetSlice img y_pad ((height : Int) - y_pad) (x0 : Int)
      ((x0 : Int) + new_width) patch =
    .ok { img with pix := fun r c =>
      (if 26 ≤ r ∧ r < 38 ∧ x0 ≤ c ∧ c < x0 + 12
       then patch.pix (r - 26) (c - x0)
       else img.pix r c) } := by
  have h1 : npSliceBound img.h y_pad = 26 := by rw [hh]; decide
  have h2 : npSliceBound img.h ((height : Int) - y_pad) = 38 := by rw [hh]; decide
  have h3 : npSliceBound img.w (x0 : Int) = x0 := by
    rw [hw]; exact npSliceBound_ofNat 64 x0 (by omega)
  have h4 : npSliceBound img.w ((x0 : Int) + new_width) = x0 + 12 := by
    rw [hw]
    have : ((x0 : Int) + new_width) = ((x0 + 12 : Nat) : Int) := by
      push_cast [new_width_eq]; ring
    rw [this]
    exact npSliceBound_ofNat 64 (x0 + 12) (by omega)
  unfold npSetSlice
  simp only [h1, h2, h3, h4]
  rw [if_pos ⟨by rw [hp]; decide, by rw [hq, new_width_eq]; omega⟩]

/-- Invariant of the glyph-placement loop: starting at glyph `s` with `fuel`
glyphs left on a 64×64 canvas whose glyph block fits, the loop succeeds;
afterwards each processed glyph `i` occupies rows `[26, 38)` and columns
`[x + i*12, x + i*12 + 12)` of the canvas, and every pixel outside the rows
`[26, 38)` or outside the processed column span is unchanged. -/
theorem placeLoop_spec (resize : NpImage → NpImage) (hres : GoodResize resize)
    (images : List NpImage) (x : Nat) :
    ∀ (f s : Nat) (img : NpImage), x + (s + f) * 12 ≤ 64 →
    img.h = height → img.w = width →
    ∃ out, placeLoop resize images (x : Int) s f img = .ok out ∧
      out.h = height ∧ out.w = width ∧
      (∀ i, s ≤ i → i < s + f → ∀ r c, 26 ≤ r → r < 38 →
        x + i * 12 ≤ c → c < x + i * 12 + 12 →
        out.pix r c =
          (resize (images.getD i (npZeros 0 0))).pix (r - 26) (c - (x + i * 12))) ∧
      (∀ r c, ¬(26 ≤ r ∧ r < 38 ∧ x + s * 12 ≤ c ∧ c < x + (s + f) * 12) →
        out.pix r c = img.pix r c) := by
  intro f
  induction f with
  | zero =>
    intro s img hx hh hw
    exact ⟨img, rfl, hh, hw, fun i h1 h2 => by omega, fun r c h => rfl⟩
  | succ f ih =>
    intro s img hx hh hw
    simp only [placeLoop]
    have hoff : ((x : Int) + (s : Int) * (new_width : Int)) =
        ((x + s * 12 : Nat) : Int) := by
      push_cast [new_width_eq]; ring
    rw [hoff, npSetSlice_at img (resize (images.getD s (npZeros 0 0))) hh hw
      (hres _).1 (hres _).2 (x + s * 12) (by omega)]
    set img1 : NpImage := { img with pix := fun r c =>
      (if 26 ≤ r ∧ r < 38 ∧ x + s * 12 ≤ c ∧ c < x + s * 12 + 12
       then (resize (images.getD s (npZeros 0 0))).pix (r - 26) (c - (x + s * 12))
       else img.pix r c) } with himg1
    obtain ⟨out, hloop, hoh, how, hglyph, hframe⟩ :=
      ih (s + 1) img1 (by omega) hh hw
    refine ⟨out, hloop, hoh, how, ?_, ?_⟩
    · intro i h1 h2 r c hr1 hr2 hc1 hc2
      rcases Nat.eq_or_lt_of_le h1 with hco | hco
      · subst hco
        have huntouched : out.pix r c = img1.pix r c := by
          apply hframe
          intro hcon
          omega
        rw [huntouched, himg1]
        exact if_pos ⟨hr1, hr2, hc1, by omega⟩
      · exact hglyph i hco (by omega) r c hr1 hr2 hc1 hc2
    · intro r c h
      have huntouched : out.pix r c = img1.pix r c := by
        apply hframe
        intro hcon
        exact h ⟨hcon.1, hcon.2.1, by omega, by omega⟩
      rw [huntouched, himg1]
      refine if_neg ?_
      intro hcon
      exact h ⟨hcon.1, hcon.2.1, hcon.2.2.1, by omega⟩

/-- Full characterization of `concat_images` on at most `max_digits` glyphs:
it succeeds, the canvas is 64×64, glyph `i` occupies rows `[26, 38)` and
columns `[x_padN num + i*12, x_padN num + i*12 + 12)`, and every other pixel
is the background `0`. -/
theorem concat_images_spec (resize : NpImage → NpImage)
    (hres : GoodResize resize) (images : List NpImage)
    (h5 : images.length ≤ max_digits) :
    ∃ out, concat_images resize images = .ok out ∧
      out.h = height ∧ out.w = width ∧
      (∀ i, i < images.length → ∀ r c, 26 ≤ r → r < 38 →
        x_padN images.length + i * 12 ≤ c →
        c < x_padN images.length + i * 12 + 12 →
        out.pix r c = (resize (images.getD i (npZeros 0 0))).pix (r - 26)
          (c - (x_padN images.length + i * 12))) ∧
      (∀ r c, ¬(26 ≤ r ∧ r < 38 ∧ x_padN images.length ≤ c ∧
          c < x_padN images.length + images.length * 12) →
        out.pix r c = 0) := by
  obtain ⟨hcast, hfit⟩ := x_padOf_eq images.length h5
  simp only [concat_images]
  rw [hcast]
  obtain ⟨out, hloop, hoh, how, hglyph, hframe⟩ :=
    placeLoop_spec resize hres images (x_padN images.length)
      images.length 0 (npZeros height width) (by omega) rfl rfl
  refine ⟨out, hloop, hoh, how, ?_, ?_⟩
  · intro i hi r c hr1 hr2 hc1 hc2
    exact hglyph i (Nat.zero_le i) (by omega) r c hr1 hr2 hc1 hc2
  · intro r c h
    have : out.pix r c = (npZeros height width).pix r c := by
      apply hframe
      intro hcon
      exact h ⟨hcon.1, hcon.2.1, by omega, by omega⟩
    rw [this]
    rfl

/-- `concat_labels` on at most `m` labels is the labels followed by filler
`10`s. -/
theorem concat_labels_eq (labels : List Nat) (m : Nat)
    (h : labels.length ≤ m) :
    concat_labels labels m = labels ++ List.replicate (m - labels.length) 10 := by
  apply List.ext_getElem
  · simp [concat_labels]
    omega
  · intro i h1 h2
    simp only [concat_labels, List.getElem_map, List.getElem_range]
    by_cases hc : i < labels.length
    · rw [if_pos hc, List.getElem_append_left hc, List.getD_eq_getElem _ _ hc]
    · rw [if_neg hc, List.getElem_append_right (by omega), List.getElem_replicate]

/-- A label vector made of real digits followed by fillers has exactly the
real digits as its non-sentinel slots. -/
theorem countNonSentinel_append (l : List Nat) (k : Nat)
    (h : ∀ v ∈ l, v < 10) :
    countNonSentinel (l ++ List.replicate k 10) = l.length := by
  unfold countNonSentinel
  rw [List.filter_append]
  have h1 : l.filter (fun v => v != 10) = l := by
    rw [List.filter_eq_self]
    intro a ha
    have := h a ha
    simp only [bne_iff_ne, ne_eq]
    omega
  have h2 : (List.replicate k 10).filter (fun v : Nat => v != 10) = [] := by
    rw [List.filter_eq_nil_iff]
    intro a ha
    rw [List.eq_of_mem_replicate ha]
    simp
  rw [h1, h2]
  simp

/-- The vertical padding as a natural number, `(height - new_height) / 2`. -/
def y_padN : Nat := (height - new_height) / 2

/-- Claim C1: for every valid input sequence (`num = len(images)` in
`[1, max_digits]` glyphs, as many labels as glyphs), composing returns a
canvas of exactly `(H, W) = (64, 64)` and a label vector of exactly length
`max_digits = 5` whose first `num` slots are the input labels in order and
whose remaining `max_digits - num` slots are the sentinel `10`. -/
theorem compose_shape_and_labels (resize : NpImage → NpImage)
    (hres : GoodResize resize) (images : List NpImage) (labels : List Nat)
    (_h1 : 1 ≤ images.length) (h2 : images.length ≤ max_digits)
    (hlen : labels.length = images.length) :
    ∃ canvas, concat_images resize images = .ok canvas ∧
      canvas.h = 64 ∧ canvas.w = 64 ∧
      (concat_labels labels max_digits).length = max_digits ∧
      concat_labels labels max_digits =
        labels ++ List.replicate (max_digits - images.length) 10 := by
  obtain ⟨out, hok, hh, hw, _, _⟩ := concat_images_spec resize hres images h2
  refine ⟨out, hok, hh, hw, by simp [concat_labels], ?_⟩
  rw [concat_labels_eq labels max_digits (by omega), hlen]

/-- Witness for C1 at a concrete input: one 28×28 glyph with label 7. -/
theorem compose_shape_and_labels_witness :
    ∃ canvas, concat_images constResize [npZeros 28 28] = .ok canvas ∧
      canvas.h = 64 ∧ canvas.w = 64 ∧
      (concat_labels [7] max_digits).length = max_digits ∧
      concat_labels [7] max_digits =
        [7] ++ List.replicate (max_digits - 1) 10 :=
  compose_shape_and_labels constResize goodResize_const [npZeros 28 28] [7]
    (by decide) (by decide) (by decide)

/-- Claim C3: for every valid `num` in `[1, max_digits]`, composing places
the scaled glyph at position `i` at exactly rows
`[y_pad, y_pad + new_height)` and columns
`[x_pad + i*new_width, x_pad + (i+1)*new_width)`, where
`y_pad = (height - new_height) / 2` and
`x_pad = (width - num*new_width) / 2` under integer division; in particular
(`num = 1`, 64×64 canvas, 12×12 glyph) the vertical padding is 26 pixels on
each side. -/
theorem compose_placement (resize : NpImage → NpImage)
    (hres : GoodResize resize) (images : List NpImage)
    (_h1 : 1 ≤ images.length) (h2 : images.length ≤ max_digits) :
    ∃ canvas, concat_images resize images = .ok canvas ∧
      (∀ i, i < images.length → ∀ r c,
        y_padN ≤ r → r < y_padN + new_height →
        x_padN images.length + i * new_width ≤ c →
        c < x_padN images.length + (i + 1) * new_width →
        canvas.pix r c = (resize (images.getD i (npZeros 0 0))).pix
          (r - y_padN) (c - (x_padN images.length + i * new_width))) ∧
      y_padN = 26 ∧ height - (y_padN + new_height) = 26 := by
  obtain ⟨out, hok, _, _, hglyph, _⟩ := concat_images_spec resize hres images h2
  refine ⟨out, hok, ?_, rfl, rfl⟩
  intro i hi r c hr1 hr2 hc1 hc2
  have hy : y_padN = 26 := rfl
  have hh12 : new_height = 12 := rfl
  rw [new_width_eq] at hc1 hc2
  exact hglyph i hi r c (by omega) (by omega) (by omega) (by omega)

/-- Witness for C3 at a concrete input: a single glyph. -/
theorem compose_placement_witness :
    ∃ canvas, concat_images constResize [npZeros 28 28] = .ok canvas ∧
      (∀ i, i < ([npZeros 28 28] : List NpImage).length → ∀ r c,
        y_padN ≤ r → r < y_padN + new_height →
        x_padN 1 + i * new_width ≤ c →
        c < x_padN 1 + (i + 1) * new_width →
        canvas.pix r c =
          (constResize (([npZeros 28 28] : List NpImage).getD i (npZeros 0 0))).pix
            (r - y_padN) (c - (x_padN 1 + i * new_width))) ∧
      y_padN = 26 ∧ height - (y_padN + new_height) = 26 :=
  compose_placement constResize goodResize_const [npZeros 28 28]
    (by decide) (by decide)

/-- Counterexample to claim C4: with zero input images `concat_images` does
not fail with `InvalidSequenceLength` (or at all) — it returns the untouched
all-zero canvas. -/
theorem compose_num_zero_no_error :
    concat_images constResize [] = .ok (npZeros height width) := rfl

/-- Claim C4 (amended): composing performs no input validation: for every
number of images from `0` to `max_digits` it succeeds (so `num = 0` raises no
`InvalidSequenceLength`), and `concat_labels` builds its length-`max_digits`
vector from the labels alone, for a label sequence of any length, so a
mismatch between `len(images)` and `len(labels)` is never detected. -/
theorem compose_no_validation (resize : NpImage → NpImage)
    (hres : GoodResize resize) (images : List NpImage)
    (h : images.length ≤ max_digits) (labels : List Nat) :
    (∃ canvas, concat_images resize images = .ok canvas) ∧
    (concat_labels labels max_digits).length = max_digits := by
  obtain ⟨out, hok, _⟩ := concat_images_spec resize hres images h
  exact ⟨⟨out, hok⟩, by simp [concat_labels]⟩

/-- Witness for amended C4: zero images together with three labels — a
mismatched pair — and both functions succeed. -/
theorem compose_no_validation_witness :
    (∃ canvas, concat_images constResize [] = .ok canvas) ∧
    (concat_labels [1, 2, 3] max_digits).length = max_digits :=
  compose_no_validation constResize goodResize_const [] (by decide) [1, 2, 3]

/-- Claim C8: for every `num ≤ width / new_width`, the canvas column ranges
`[x_pad + i*new_width, x_pad + (i+1)*new_width)` written for distinct glyph
positions `i ≠ j` never share a column index. -/
theorem glyph_columns_disjoint (num i j : Nat) (c : Int)
    (_hnum : num ≤ width / new_width) (_hi : i < num) (_hj : j < num)
    (hij : i ≠ j) :
    ¬((x_padOf num + i * new_width ≤ c ∧
        c < x_padOf num + (i + 1) * new_width) ∧
      (x_padOf num + j * new_width ≤ c ∧
        c < x_padOf num + (j + 1) * new_width)) := by
  intro h
  obtain ⟨⟨h1, h2⟩, h3, h4⟩ := h
  have e : ((new_width : Nat) : Int) = 12 := rfl
  rw [e] at h1 h2 h3 h4
  omega

/-- Witness for C8: positions 0 and 1 of a five-glyph canvas. -/
theorem glyph_columns_disjoint_witness :
    ¬((x_padOf 5 + 0 * new_width ≤ (2 : Int) ∧
        (2 : Int) < x_padOf 5 + (0 + 1) * new_width) ∧
      (x_padOf 5 + 1 * new_width ≤ (2 : Int) ∧
        (2 : Int) < x_padOf 5 + (1 + 1) * new_width)) :=
  glyph_columns_disjoint 5 0 1 2 (by decide) (by decide) (by decide) (by decide)

/-- Claim C9: composing is deterministic — two calls on identical image and
label sequences (with the same scaling policy `resize`) return identical
results; the embedding is a pure function of its arguments, mirroring the
source, which mutates only its freshly allocated canvas. -/
theorem compose_deterministic (resize : NpImage → NpImage)
    (images1 images2 : List NpImage) (labels1 labels2 : List Nat)
    (h1 : images1 = images2) (h2 : labels1 = labels2) :
    concat_images resize images1 = concat_images resize images2 ∧
    concat_labels labels1 max_digits = concat_labels labels2 max_digits := by
  subst h1
  subst h2
  exact ⟨rfl, rfl⟩

/-- Witness for C9 at a concrete input. -/
theorem compose_deterministic_witness :
    concat_images constResize [npZeros 28 28] =
      concat_images constResize [npZeros 28 28] ∧
    concat_labels [4] max_digits = concat_labels [4] max_digits :=
  compose_deterministic constResize [npZeros 28 28] [npZeros 28 28] [4] [4]
    rfl rfl

/-- Claim C10 (implicit frame property): for every valid input, every canvas
pixel outside the union of the placed glyph rectangles (rows
`[y_pad, y_pad + new_height)`, columns `[x_pad, x_pad + num*new_width)`)
equals the background value `0`. -/
theorem compose_frame (resize : NpImage → NpImage)
    (hres : GoodResize resize) (images : List NpImage)
    (_h1 : 1 ≤ images.length) (h2 : images.length ≤ max_digits) :
    ∃ canvas, concat_images resize images = .ok canvas ∧
      ∀ r c, ¬(y_padN ≤ r ∧ r < y_padN + new_height ∧
          x_padN images.length ≤ c ∧
          c < x_padN images.length + images.length * new_width) →
        canvas.pix r c = 0 := by
  obtain ⟨out, hok, _, _, _, hframe⟩ := concat_images_spec resize hres images h2
  exact ⟨out, hok, fun r c h => hframe r c h⟩

/-- Witness for C10 at a concrete input. -/
theorem compose_frame_witness :
    ∃ canvas, concat_images constResize [npZeros 28 28] = .ok canvas ∧
      ∀ r c, ¬(y_padN ≤ r ∧ r < y_padN + new_height ∧
          x_padN 1 ≤ c ∧ c < x_padN 1 + 1 * new_width) →
        canvas.pix r c = 0 :=
  compose_frame constResize goodResize_const [npZeros 28 28]
    (by decide) (by decide)

theorem getD_set_ne {α : Type} (l : List α) (i j : Nat) (a d : α)
    (h : i ≠ j) : (l.set i a).getD j d = l.getD j d := by
  simp [List.getD, List.getElem?_set_ne h]

theorem getD_set_eq {α : Type} (l : List α) (i : Nat) (a d : α)
    (h : i < l.length) : (l.set i a).getD i d = a := by
  simp [List.getD, List.getElem?_set_eq_of_lt a h]

theorem getD_replicate {α : Type} (n i : Nat) (a d : α) (h : i < n) :
    (List.replicate n a).getD i d = a := by
  rw [List.getD_eq_getElem _ _ (by simpa using h), List.getElem_replicate]

/-- Invariant of the inner sampling loop for sequence length `i` (valid for
the corpus): starting at output index `j0` with `fuel` samples left, the loop
succeeds, array lengths are preserved, entries outside `[j0, j0+fuel)` are
untouched, and each entry `j` inside the range receives the label vector of
the `j`-th drawn selection. -/
theorem genInner_spec (resize : NpImage → NpImage) (hres : GoodResize resize)
    (sel : Nat → Nat → Nat → List Nat) (data : List NpImage)
    (labels : List Nat) (i : Nat) (hi : i ≤ max_digits)
    (hpop : i ≤ data.length)
    (hlen : ∀ j, (sel j data.length i).length = i) :
    ∀ (fuel j0 : Nat) (Xa : List NpImage) (ya : List (List Nat)),
    ∃ Xb yb, genInner resize sel data labels i j0 fuel (Xa, ya) = .ok (Xb, yb) ∧
      Xb.length = Xa.length ∧ yb.length = ya.length ∧
      (∀ j, j < j0 ∨ j0 + fuel ≤ j →
        Xb.getD j (npZeros 0 0) = Xa.getD j (npZeros 0 0) ∧
        yb.getD j [] = ya.getD j []) ∧
      (∀ j, j0 ≤ j → j < j0 + fuel → j < ya.length →
        yb.getD j [] =
          concat_labels ((sel j data.length i).map fun ix => labels.getD ix 0)) := by
  intro fuel
  induction fuel with
  | zero =>
    intro j0 Xa ya
    exact ⟨Xa, ya, rfl, rfl, rfl, fun j h => ⟨rfl, rfl⟩, fun j h1 h2 => by omega⟩
  | succ fuel ih =>
    intro j0 Xa ya
    simp only [genInner, sampleIdx]
    rw [if_pos hpop]
    dsimp only
    have hmlen :
        ((sel j0 data.length i).map fun ix => data.getD ix (npZeros 0 0)).length
          ≤ max_digits := by
      rw [List.length_map, hlen j0]
      exact hi
    obtain ⟨canvas, hcok, _⟩ :=
      concat_images_spec resize hres
        ((sel j0 data.length i).map fun ix => data.getD ix (npZeros 0 0)) hmlen
    rw [hcok]
    obtain ⟨Xb, yb, hrec, hlX, hlY, hu, hw⟩ :=
      ih (j0 + 1) (Xa.set j0 canvas)
        (ya.set j0
          (concat_labels ((sel j0 data.length i).map fun ix => labels.getD ix 0)))
    refine ⟨Xb, yb, hrec, by simpa using hlX, by simpa using hlY, ?_, ?_⟩
    · intro j hj
      have hne : j0 ≠ j := by omega
      obtain ⟨e1, e2⟩ := hu j (by omega)
      exact ⟨e1.trans (getD_set_ne _ _ _ _ _ hne),
        e2.trans (getD_set_ne _ _ _ _ _ hne)⟩
    · intro j hj1 hj2 hjlen
      by_cases hc : j = j0
      · subst hc
        obtain ⟨_, e2⟩ := hu j (by omega)
        rw [e2, getD_set_eq _ _ _ _ hjlen]
      · exact hw j (by omega) (by omega) (by simpa using hjlen)

/-- Invariant of the outer loop over sequence lengths: starting at length
`i0` (with `i0 + fuel = max_digits + 1`), when the corpus suffices (or no
samples are drawn at all), the loop succeeds, lengths are preserved, entries
below block `i0` or at/after index `max_digits * n_samples` are untouched,
and entry `j` of block `k` receives the label vector of selection
`sel j data.length k`. -/
theorem genOuter_spec (resize : NpImage → NpImage) (hres : GoodResize resize)
    (sel : Nat → Nat → Nat → List Nat) (hsel : ValidSel sel)
    (data : List NpImage) (labels : List Nat) (ns : Nat)
    (hok : ns = 0 ∨ max_digits ≤ data.length) :
    ∀ (fuel i0 : Nat), 1 ≤ i0 → i0 + fuel = max_digits + 1 →
    ∀ (Xa : List NpImage) (ya : List (List Nat)),
    ∃ Xb yb, genOuter resize sel data labels ns i0 fuel (Xa, ya) = .ok (Xb, yb) ∧
      Xb.length = Xa.length ∧ yb.length = ya.length ∧
      (∀ j, j < (i0 - 1) * ns ∨ max_digits * ns ≤ j →
        Xb.getD j (npZeros 0 0) = Xa.getD j (npZeros 0 0) ∧
        yb.getD j [] = ya.getD j []) ∧
      (∀ k, i0 ≤ k → k ≤ max_digits → ∀ j, (k - 1) * ns ≤ j → j < k * ns →
        j < ya.length →
        yb.getD j [] =
          concat_labels ((sel j data.length k).map fun ix => labels.getD ix 0)) := by
  intro fuel
  induction fuel with
  | zero =>
    intro i0 h1 h2 Xa ya
    rw [max_digits_eq] at h2
    refine ⟨Xa, ya, rfl, rfl, rfl, fun j h => ⟨rfl, rfl⟩, ?_⟩
    intro k hk1 hk2
    rw [max_digits_eq] at hk2
    omega
  | succ fuel ih =>
    intro i0 h1 h2 Xa ya
    rw [max_digits_eq] at h2
    simp only [genOuter]
    have hi0 : i0 ≤ max_digits := by rw [max_digits_eq]; omega
    rcases hok with hns | hpop
    · subst hns
      obtain ⟨Xb, yb, hrec, hlX, hlY, hu, hw⟩ :=
        ih (i0 + 1) (by omega) (by rw [max_digits_eq]; omega) Xa ya
      refine ⟨Xb, yb, hrec, hlX, hlY, ?_, ?_⟩
      · intro j hj
        exact hu j (by omega)
      · intro k hk1 hk2 j hj1 hj2
        omega
    · have hlen : ∀ j, (sel j data.length i0).length = i0 := fun j =>
        (hsel j data.length i0 (le_trans hi0 hpop)).1
      obtain ⟨X1, y1, hin, hl1, hl2, hu1, hw1⟩ :=
        genInner_spec resize hres sel data labels i0 hi0
          (le_trans hi0 hpop) hlen ns ((i0 - 1) * ns) Xa ya
      rw [hin]
      obtain ⟨Xb, yb, hout, hlX, hlY, hu2, hw2⟩ :=
        ih (i0 + 1) (by omega) (by rw [max_digits_eq]; omega) X1 y1
      have e1 : (i0 - 1) * ns + ns = i0 * ns := by
        cases i0 with
        | zero => omega
        | succ m => simp [Nat.succ_mul]
      have e2 : i0 * ns ≤ max_digits * ns :=
        Nat.mul_le_mul_right ns hi0
      have e3 : (i0 + 1 - 1) * ns = i0 * ns := by rw [Nat.add_sub_cancel]
      refine ⟨Xb, yb, hout, hlX.trans hl1, hlY.trans hl2, ?_, ?_⟩
      · intro j hj
        obtain ⟨f1, f2⟩ := hu2 j (by omega)
        obtain ⟨g1, g2⟩ := hu1 j (by omega)
        exact ⟨f1.trans g1, f2.trans g2⟩
      · intro k hk1 hk2 j hj1 hj2 hjlen
        by_cases hc : k = i0
        · rw [hc] at hj1 hj2 ⊢
          obtain ⟨_, f2⟩ := hu2 j (by omega)
          rw [f2]
          exact hw1 j hj1 (by omega) hjlen
        · exact hw2 k (by omega) hk2 j hj1 hj2 (by omega)

/-- When the requested sample size exceeds the corpus, the first iteration of
the inner loop raises `ValueError` (Python's `random.sample`). -/
theorem genInner_err (resize : NpImage → NpImage)
    (sel : Nat → Nat → Nat → List Nat) (data : List NpImage)
    (labels : List Nat) (i j fuel : Nat)
    (acc : List NpImage × List (List Nat))
    (hpop : data.length < i) (hfuel : 1 ≤ fuel) :
    genInner resize sel data labels i j fuel acc =
      .error "ValueError: sample larger than population" := by
  cases fuel with
  | zero => omega
  | succ fuel =>
    obtain ⟨Xa, ya⟩ := acc
    simp only [genInner, sampleIdx]
    rw [if_neg (by omega)]

/-- When the corpus is smaller than `max_digits` and each block is nonempty,
the outer loop reaches the first too-long sequence length and propagates the
`ValueError` raised by `random.sample`. -/
theorem genOuter_err (resize : NpImage → NpImage) (hres : GoodResize resize)
    (sel : Nat → Nat → Nat → List Nat) (hsel : ValidSel sel)
    (data : List NpImage) (labels : List Nat) (ns : Nat) (hns : 1 ≤ ns)
    (hpop : data.length < max_digits) :
    ∀ (fuel i0 : Nat), 1 ≤ i0 → i0 + fuel = max_digits + 1 →
      i0 ≤ data.length + 1 →
    ∀ (acc : List NpImage × List (List Nat)),
    genOuter resize sel data labels ns i0 fuel acc =
      .error "ValueError: sample larger than population" := by
  intro fuel
  induction fuel with
  | zero =>
    intro i0 h1 h2 h3 acc
    rw [max_digits_eq] at h2 hpop
    omega
  | succ fuel ih =>
    intro i0 h1 h2 h3 acc
    obtain ⟨Xa, ya⟩ := acc
    simp only [genOuter]
    by_cases hc : i0 ≤ data.length
    · have hi0 : i0 ≤ max_digits := by rw [max_digits_eq] at h2 ⊢; omega
      have hlen : ∀ j, (sel j data.length i0).length = i0 := fun j =>
        (hsel j data.length i0 hc).1
      obtain ⟨X1, y1, hin, _⟩ :=
        genInner_spec resize hres sel data labels i0 hi0 hc hlen ns
          ((i0 - 1) * ns) Xa ya
      rw [hin]
      exact ih (i0 + 1) (by omega) (by omega) (by omega) (X1, y1)
    · rw [genInner_err resize sel data labels i0 ((i0 - 1) * ns) ns (Xa, ya)
        (by omega) hns]

/-- Counterexample to claim C5: with an empty corpus and `target_size = 0`
the generator does not fail at all — it returns the empty dataset. -/
theorem generate_empty_corpus_no_error :
    generate_digit_sequences constResize rangeSel [] [] 0 = .ok ([], []) := rfl

/-- Claim C5 (amended): the generator fails exactly when at least one sample
per sequence length is requested (`target_size / max_digits ≥ 1`) and the
corpus holds fewer than `max_digits` images (which covers the empty corpus);
both conditions surface as the single `ValueError` of `random.sample`,
propagated to the caller with no partial dataset returned. -/
theorem generate_error_iff (resize : NpImage → NpImage)
    (hres : GoodResize resize) (sel : Nat → Nat → Nat → List Nat)
    (hsel : ValidSel sel) (data : List NpImage) (labels : List Nat) (n : Nat) :
    (∃ e, generate_digit_sequences resize sel data labels n = .error e) ↔
      (1 ≤ n / max_digits ∧ data.length < max_digits) := by
  constructor
  · rintro ⟨e, he⟩
    by_contra hcon
    have hok : n / max_digits = 0 ∨ max_digits ≤ data.length := by
      rw [max_digits_eq] at hcon ⊢
      by_contra hno
      push_neg at hno
      exact hcon ⟨by omega, by omega⟩
    obtain ⟨Xb, yb, hgen, _⟩ :=
      genOuter_spec resize hres sel hsel data labels (n / max_digits) hok
        max_digits 1 (by omega) (by omega)
        (List.replicate n (npZeros height width))
        (List.replicate n (List.replicate max_digits 0))
    simp only [generate_digit_sequences] at he
    rw [hgen] at he
    exact Except.noConfusion he
  · rintro ⟨h1, h2⟩
    refine ⟨"ValueError: sample larger than population", ?_⟩
    simp only [generate_digit_sequences]
    exact genOuter_err resize hres sel hsel data labels (n / max_digits) h1 h2
      max_digits 1 (by omega) (by omega) (by omega) _

/-- Witness for amended C5: a corpus of two images with one block requested
makes the generator fail. -/
theorem generate_error_iff_witness :
    ∃ e, generate_digit_sequences constResize rangeSel
      [npZeros 28 28, npZeros 28 28] [4, 9] 5 = .error e :=
  (generate_error_iff constResize goodResize_const rangeSel validSel_rangeSel
    [npZeros 28 28, npZeros 28 28] [4, 9] 5).mpr (by decide)

/-- Counterexample to claim C7: for `target_size = 6` (not divisible by
`max_digits = 5`) on an adequate 5-image corpus, the generator does not fail
— and the dataset it silently returns is unbalanced: two samples have five
non-sentinel slots while only one sample has one. -/
theorem generate_unbalanced_target :
    isOkE (generate_digit_sequences constResize rangeSel
      (List.replicate 5 (npZeros 28 28)) [0, 1, 2, 3, 4] 6) = true ∧
    ((Finset.range 6).filter (fun j =>
      countNonSentinel ((labelsOf (generate_digit_sequences constResize
        rangeSel (List.replicate 5 (npZeros 28 28)) [0, 1, 2, 3, 4] 6)).getD
          j []) = 5)).card = 2 ∧
    ((Finset.range 6).filter (fun j =>
      countNonSentinel ((labelsOf (generate_digit_sequences constResize
        rangeSel (List.replicate 5 (npZeros 28 28)) [0, 1, 2, 3, 4] 6)).getD
          j []) = 1)).card = 1 := by
  refine ⟨rfl, ?_, ?_⟩ <;> decide

/-- Claim C7 (amended): when `max_digits` does not divide `target_size`, the
generator silently returns `target_size` entries of which only
`max_digits * (target_size / max_digits)` are generated; the trailing
`target_size mod max_digits` entries keep their zero initialization — an
all-zero canvas and the label vector `[0,0,0,0,0]` — so the equal-group-size
balance is violated and no `UnbalancedTargetSize` error exists. -/
theorem generate_remainder (resize : NpImage → NpImage)
    (hres : GoodResize resize) (sel : Nat → Nat → Nat → List Nat)
    (hsel : ValidSel sel) (data : List NpImage) (labels : List Nat) (n : Nat)
    (hndiv : ¬ max_digits ∣ n) (hpop : max_digits ≤ data.length) :
    ∃ X y, generate_digit_sequences resize sel data labels n = .ok (X, y) ∧
      X.length = n ∧ y.length = n ∧
      max_digits * (n / max_digits) < n ∧
      (∀ j, max_digits * (n / max_digits) ≤ j → j < n →
        X.getD j (npZeros 0 0) = npZeros height width ∧
        y.getD j [] = List.replicate max_digits 0) := by
  obtain ⟨X, y, hgen, hlX, hlY, hu, _⟩ :=
    genOuter_spec resize hres sel hsel data labels (n / max_digits)
      (Or.inr hpop) max_digits 1 (by omega) (by omega)
      (List.replicate n (npZeros height width))
      (List.replicate n (List.replicate max_digits 0))
  refine ⟨X, y, by simp only [generate_digit_sequences]; exact hgen,
    by simpa using hlX, by simpa using hlY, ?_, ?_⟩
  · rw [max_digits_eq] at hndiv ⊢
    omega
  · intro j hj1 hj2
    obtain ⟨f1, f2⟩ := hu j (Or.inr hj1)
    exact ⟨f1.trans (getD_replicate n j _ _ hj2),
      f2.trans (getD_replicate n j _ _ hj2)⟩

/-- Witness for amended C7 at `target_size = 6` on a 5-image corpus. -/
theorem generate_remainder_witness :
    ∃ X y, generate_digit_sequences constResize rangeSel
        (List.replicate 5 (npZeros 28 28)) [0, 1, 2, 3, 4] 6 = .ok (X, y) ∧
      X.length = 6 ∧ y.length = 6 ∧
      max_digits * (6 / max_digits) < 6 ∧
      (∀ j, max_digits * (6 / max_digits) ≤ j → j < 6 →
        X.getD j (npZeros 0 0) = npZeros height width ∧
        y.getD j [] = List.replicate max_digits 0) :=
  generate_remainder constResize goodResize_const rangeSel validSel_rangeSel
    (List.replicate 5 (npZeros 28 28)) [0, 1, 2, 3, 4] 6 (by decide) (by decide)

/-- Claim C2: for every `target_size` divisible by `max_digits` (on an
adequate corpus of digit labels), the generator returns two parallel arrays
of total length `target_size`, partitioned into `max_digits` contiguous
groups of equal size `target_size / max_digits`, where every sample of group
`i` (1-indexed, at output indices `[(i-1)*gs, i*gs)`) has exactly `i`
non-sentinel label slots; consequently, for each `i` in `1..max_digits`,
exactly `target_size / max_digits` samples have exactly `i` non-sentinel
slots. -/
theorem generate_balanced (resize : NpImage → NpImage)
    (hres : GoodResize resize) (sel : Nat → Nat → Nat → List Nat)
    (hsel : ValidSel sel) (data : List NpImage) (labels : List Nat) (n : Nat)
    (hdiv : max_digits ∣ n) (hpop : max_digits ≤ data.length)
    (hlab : ∀ ix, ix < data.length → labels.getD ix 0 < 10) :
    ∃ X y, generate_digit_sequences resize sel data labels n = .ok (X, y) ∧
      X.length = n ∧ y.length = n ∧
      (∀ i, 1 ≤ i → i ≤ max_digits →
        ∀ j, (i - 1) * (n / max_digits) ≤ j → j < i * (n / max_digits) →
          countNonSentinel (y.getD j []) = i) ∧
      (∀ i, 1 ≤ i → i ≤ max_digits →
        ((Finset.range n).filter
          (fun j => countNonSentinel (y.getD j []) = i)).card =
          n / max_digits) := by
  obtain ⟨X, y, hgen, hlX, hlY, _, hw⟩ :=
    genOuter_spec resize hres sel hsel data labels (n / max_digits)
      (Or.inr hpop) max_digits 1 (by omega) (by omega)
      (List.replicate n (npZeros height width))
      (List.replicate n (List.replicate max_digits 0))
  have hXn : X.length = n := by simpa using hlX
  have hyn : y.length = n := by simpa using hlY
  have hmul : max_digits * (n / max_digits) = n := Nat.mul_div_cancel' hdiv
  have hcount : ∀ i, 1 ≤ i → i ≤ max_digits →
      ∀ j, (i - 1) * (n / max_digits) ≤ j → j < i * (n / max_digits) →
        countNonSentinel (y.getD j []) = i := by
    intro i h1 h2 j hj1 hj2
    have hjn : j < n := by
      have := Nat.mul_le_mul_right (n / max_digits) h2
      omega
    have hylen : j < (List.replicate n (List.replicate max_digits 0)).length := by
      simpa using hjn
    rw [hw i h1 h2 j hj1 hj2 hylen]
    have hle : i ≤ data.length := le_trans h2 hpop
    have hslen : (sel j data.length i).length = i := (hsel j data.length i hle).1
    have hmlen :
        ((sel j data.length i).map fun ix => labels.getD ix 0).length = i := by
      rw [List.length_map, hslen]
    have hm10 : ∀ v ∈ (sel j data.length i).map fun ix => labels.getD ix 0,
        v < 10 := by
      intro v hv
      obtain ⟨ix, hix, rfl⟩ := List.mem_map.mp hv
      exact hlab ix ((hsel j data.length i hle).2.2 ix hix)
    rw [concat_labels_eq _ 5
      (by rw [hmlen]; rw [max_digits_eq] at h2; omega)]
    rw [countNonSentinel_append _ _ hm10]
    exact hmlen
  refine ⟨X, y, by simp only [generate_digit_sequences]; exact hgen,
    hXn, hyn, hcount, ?_⟩
  intro i h1 h2
  rcases Nat.eq_zero_or_pos n with hn0 | hnpos
  · subst hn0
    simp
  · have hns : 0 < n / max_digits := by
      rw [max_digits_eq] at hmul ⊢
      omega
    have key : ((Finset.range n).filter
        (fun j => countNonSentinel (y.getD j []) = i)) =
        Finset.Ico ((i - 1) * (n / max_digits)) (i * (n / max_digits)) := by
      ext j
      simp only [Finset.mem_filter, Finset.mem_range, Finset.mem_Ico]
      constructor
      · rintro ⟨hjn, hcnt⟩
        set ns := n / max_digits with hns_def
        obtain ⟨q, r, hqr, hrlt⟩ : ∃ q r, j = ns * q + r ∧ r < ns :=
          ⟨j / ns, j % ns, (Nat.div_add_mod j ns).symm, Nat.mod_lt j hns⟩
        have hcm : ns * q = q * ns := Nat.mul_comm _ _
        have hb1 : (q + 1 - 1) * ns ≤ j := by
          rw [Nat.add_sub_cancel]
          omega
        have hb2 : j < (q + 1) * ns := by
          have hsm : (q + 1) * ns = q * ns + ns := Nat.succ_mul _ _
          omega
        have hq5 : q + 1 ≤ max_digits := by
          by_contra hq
          push_neg at hq
          have hmm : max_digits * ns ≤ q * ns :=
            Nat.mul_le_mul_right ns (by omega)
          omega
        have hgrp := hcount (q + 1) (by omega) hq5 j hb1 hb2
        have hi_eq : i = q + 1 := by rw [← hcnt, hgrp]
        rw [hi_eq]
        exact ⟨hb1, hb2⟩
      · rintro ⟨hj1, hj2⟩
        have hin : i * (n / max_digits) ≤ n := by
          have := Nat.mul_le_mul_right (n / max_digits) h2
          omega
        exact ⟨by omega, hcount i h1 h2 j hj1 hj2⟩
    rw [key, Nat.card_Ico]
    have hstep : i * (n / max_digits) =
        (i - 1) * (n / max_digits) + n / max_digits := by
      cases i with
      | zero => omega
      | succ m => simp [Nat.succ_mul]
    omega

/-- Witness for C2: `target_size = 10` on a five-image corpus with labels
`0..4`. -/
theorem generate_balanced_witness :
    ∃ X y, generate_digit_sequences constResize rangeSel
        (List.replicate 5 (npZeros 28 28)) [0, 1, 2, 3, 4] 10 = .ok (X, y) ∧
      X.length = 10 ∧ y.length = 10 ∧
      (∀ i, 1 ≤ i → i ≤ max_digits →
        ∀ j, (i - 1) * (10 / max_digits) ≤ j → j < i * (10 / max_digits) →
          countNonSentinel (y.getD j []) = i) ∧
      (∀ i, 1 ≤ i → i ≤ max_digits →
        ((Finset.range 10).filter
          (fun j => countNonSentinel (y.getD j []) = i)).card =
          10 / max_digits) :=
  generate_balanced constResize goodResize_const rangeSel validSel_rangeSel
    (List.replicate 5 (npZeros 28 28)) [0, 1, 2, 3, 4] 10
    (by decide) (by decide) (by decide)

/-- Claim C6: every sample's drawn corpus indices are pairwise distinct (the
sample is drawn without replacement within one sequence), while the same
corpus index may appear in different generated samples: in a concrete run
with the `rangeSel` oracle, samples 0 and 2 both draw corpus index 0. -/
theorem generate_sample_nodup (resize : NpImage → NpImage)
    (hres : GoodResize resize) (sel : Nat → Nat → Nat → List Nat)
    (hsel : ValidSel sel) (data : List NpImage) (labels : List Nat) (n : Nat)
    (hdiv : max_digits ∣ n) (hpop : max_digits ≤ data.length) :
    (∃ X y, generate_digit_sequences resize sel data labels n = .ok (X, y) ∧
      ∀ k, 1 ≤ k → k ≤ max_digits →
        ∀ j, (k - 1) * (n / max_digits) ≤ j → j < k * (n / max_digits) →
          (sel j data.length k).Nodup ∧
          y.getD j [] =
            concat_labels
              ((sel j data.length k).map fun ix => labels.getD ix 0)) ∧
    (0 ∈ rangeSel 0 5 1 ∧ 0 ∈ rangeSel 2 5 2 ∧
      isOkE (generate_digit_sequences constResize rangeSel
        (List.replicate 5 (npZeros 28 28)) [0, 1, 2, 3, 4] 10) = true) := by
  refine ⟨?_, by decide, by decide, rfl⟩
  obtain ⟨X, y, hgen, _, hlY, _, hw⟩ :=
    genOuter_spec resize hres sel hsel data labels (n / max_digits)
      (Or.inr hpop) max_digits 1 (by omega) (by omega)
      (List.replicate n (npZeros height width))
      (List.replicate n (List.replicate max_digits 0))
  have hmul : max_digits * (n / max_digits) = n := Nat.mul_div_cancel' hdiv
  refine ⟨X, y, by simp only [generate_digit_sequences]; exact hgen, ?_⟩
  intro k h1 h2 j hj1 hj2
  have hjn : j < n := by
    have := Nat.mul_le_mul_right (n / max_digits) h2
    omega
  have hylen : j < (List.replicate n (List.replicate max_digits 0)).length := by
    simpa using hjn
  exact ⟨(hsel j data.length k (le_trans h2 hpop)).2.1,
    hw k h1 h2 j hj1 hj2 hylen⟩

/-- Witness for C6: `target_size = 10` on a five-image corpus. -/
theorem generate_sample_nodup_witness :
    (∃ X y, generate_digit_sequences constResize rangeSel
        (List.replicate 5 (npZeros 28 28)) [0, 1, 2, 3, 4] 10 = .ok (X, y) ∧
      ∀ k, 1 ≤ k → k ≤ max_digits →
        ∀ j, (k - 1) * (10 / max_digits) ≤ j → j < k * (10 / max_digits) →
          (rangeSel j (List.replicate 5 (npZeros 28 28)).length k).Nodup ∧
          y.getD j [] =
            concat_labels
              ((rangeSel j (List.replicate 5 (npZeros 28 28)).length k).map
                fun ix => ([0, 1, 2, 3, 4] : List Nat).getD ix 0)) ∧
    (0 ∈ rangeSel 0 5 1 ∧ 0 ∈ rangeSel 2 5 2 ∧
      isOkE (generate_digit_sequences constResize rangeSel
        (List.replicate 5 (npZeros 28 28)) [0, 1, 2, 3, 4] 10) = true) :=
  generate_sample_nodup constResize goodResize_const rangeSel
    validSel_rangeSel (List.replicate 5 (npZeros 28 28)) [0, 1, 2, 3, 4] 10
    (by decide) (by decide)

/-- Concrete run documenting the remainder behavior: for `target_size = 6`
on the five-image corpus with labels `0..4` and the `rangeSel` oracle, the
returned label array holds one sample per length `1..5` followed by the
untouched zero-initialized row. -/
theorem generate_six_labels :
    labelsOf (generate_digit_sequences constResize rangeSel
      (List.replicate 5 (npZeros 28 28)) [0, 1, 2, 3, 4] 6) =
    [[0, 10, 10, 10, 10], [0, 1, 10, 10, 10], [0, 1, 2, 10, 10],
     [0, 1, 2, 3, 10], [0, 1, 2, 3, 4], [0, 0, 0, 0, 0]] := by decide
